import Mathlib

/-!
Shallow embedding of `src/src/lib.rs` (crust-gather/unselector): a logos-based
tokenizer that parses Kubernetes-style label-selector strings into
`Expression` values.

Modelling conventions:
* Strings are modelled as `List Char`; spans are half-open byte ranges
  computed with `Char.utf8Size`, matching the byte offsets of the Rust
  `logos::Span`.
* The regex character class `\w` is modelled on its ASCII fragment
  (`[0-9A-Za-z_]`); `\s` is `[ \t\n\x0b\x0c\r]`.
* Each `#[derive(Logos)]` lexer is hand-compiled to a deterministic
  maximal-munch matcher.  For the top-level `ParsedExpression` lexer the
  set-style patterns (lines 67-70 of lib.rs) and the equality patterns
  (lines 71-73) are compiled to `setPatMatch` / `eqPatMatch`, which return
  the length of the longest prefix accepted by any pattern of the group;
  the longer group wins, mirroring logos longest-match dispatch.  The two
  groups can never tie on the same nonzero length because an equality
  match contains `=` while no set-style pattern can match `=`.
* When no pattern accepts a prefix, the lexer emits an error token covering
  one character, which is the behaviour pinned by the crate's own
  `expression_lexer` test (errors on `"("` and `")"` are one byte each).
* A callback returning `None` (`parse_set` / `parse_equality` /
  `parse_value_list`) turns the matched slice into an error token whose
  span is the span of the slice.
* `BTreeSet<String>` is modelled as its ascending iteration list, built by
  ordered insertion (`btreeInsert` / `btreeOfList`).
* The recursive drivers take explicit fuel (`input.length + 1` at the
  entry points); each lexing step consumes at least one character, so this
  fuel is always sufficient (`parseAllF_stable` below makes this precise).
-/

/-- Half-open byte range `[start, stop)`, modelling `logos::Span`. -/
structure Span where
  start : Nat
  stop : Nat
deriving DecidableEq, Repr

/-- Expression model from lib.rs lines 10-28.  `In`/`NotIn` hold the
ascending iteration list of the Rust `BTreeSet<String>`. -/
inductive Expression where
  | In (key : String) (values : List String)
  | NotIn (key : String) (values : List String)
  | Equal (key : String) (value : String)
  | NotEqual (key : String) (value : String)
  | Exists (key : String)
  | DoesNotExist (key : String)
deriving DecidableEq, Repr

/-- `ParseError` from lib.rs lines 46-49: the offending text and its span. -/
inductive ParseError where
  | StringParse (text : String) (span : Span)
deriving DecidableEq, Repr

/-- Tokens of the `SetToken` lexer (lib.rs lines 103-120). -/
inductive SetToken where
  | Not
  | ValuesList (values : List String)
  | In
  | NotIn
  | Value (s : String)
deriving DecidableEq, Repr

/-- Tokens of the `EqualityToken` lexer (lib.rs lines 91-101). -/
inductive EqualityToken where
  | Equal
  | NotEqual
  | Value (s : String)
deriving DecidableEq, Repr

/-- ASCII fragment of the regex class `\w`. -/
def isWordChar (c : Char) : Bool :=
  c.isAlphanum || c == '_'

/-- The key/identifier class `[-./\w]`. -/
def isKeyChar (c : Char) : Bool :=
  c == '-' || c == '.' || c == '/' || isWordChar c

/-- The equality-value class `[-.\w]`. -/
def isValueChar (c : Char) : Bool :=
  c == '-' || c == '.' || isWordChar c

/-- The regex class `\s`: space, tab, newline, vertical tab, form feed,
carriage return. -/
def isSpaceChar (c : Char) : Bool :=
  c == ' ' || c == '\t' || c == '\n' || c == '\x0b' || c == '\x0c' || c == '\r'

/-- Skip class of the `ParsedExpression` and `SetToken` lexers:
`[, \t\n\f]` (comma, space, tab, newline, form feed). -/
def isSkipChar (c : Char) : Bool :=
  c == ',' || c == ' ' || c == '\t' || c == '\n' || c == '\x0c'

/-- Skip class of the `EqualityToken` lexer: `[ \t\n\f]` (no comma). -/
def isEqSkip (c : Char) : Bool :=
  c == ' ' || c == '\t' || c == '\n' || c == '\x0c'

/-- Skip class of the `ValuesListToken` lexer: `[, \(\)\t\n\f]`. -/
def isVlSkip (c : Char) : Bool :=
  c == ',' || c == ' ' || c == '(' || c == ')' || c == '\t' || c == '\n' || c == '\x0c'

/-- The value-list member class `[a-zA-Z_-]`. -/
def isVlChar (c : Char) : Bool :=
  c.isAlpha || c == '_' || c == '-'

/-- Interior class of the `SetToken::ValuesList` regex `\([\w\s,]+\)`. -/
def isSetInner (c : Char) : Bool :=
  isWordChar c || isSpaceChar c || c == ','

/-- Interior class of the top-level value-list regexes `\([-.\w\s,]+\)`. -/
def isTopInner (c : Char) : Bool :=
  c == '-' || c == '.' || isWordChar c || isSpaceChar c || c == ','

/-- Byte length of a character list (UTF-8). -/
def byteLen (cs : List Char) : Nat :=
  (cs.map Char.utf8Size).sum

/-- Lexicographic comparison of character lists: the order `Ord for String`
uses in Rust (byte-lexicographic, which on UTF-8 agrees with
codepoint-lexicographic order). -/
def charListLt : List Char → List Char → Bool
  | _, [] => false
  | [], _ :: _ => true
  | a :: as, b :: bs =>
    if a < b then true
    else if b < a then false
    else charListLt as bs

/-- Lexicographic order on strings (the `BTreeSet<String>` key order). -/
def strLt (a b : String) : Bool :=
  charListLt a.data b.data

/-- Ordered insertion into the ascending element list of a `BTreeSet<String>`. -/
def btreeInsert (v : String) : List String → List String
  | [] => [v]
  | x :: xs =>
    if strLt v x then v :: x :: xs
    else if v = x then x :: xs
    else x :: btreeInsert v xs

/-- `values.into_iter().collect::<BTreeSet<String>>()` (lib.rs lines 180, 184),
as the ascending element list. -/
def btreeOfList (l : List String) : List String :=
  l.foldl (fun acc v => btreeInsert v acc) []

/-- One step of the `ValuesListToken` lexer folded into the loop of
`parse_value_list` (lib.rs lines 122-127 and 194-204): skip
`[, \(\)\t\n\f]`, take maximal `[a-zA-Z_-]+` runs as values, fail on any
other character.  The fuel argument dominates the recursion; each step
consumes at least one character, so `cs.length + 1` is always enough. -/
def parse_value_listF : Nat → List Char → Option (List String)
  | _, [] => some []
  | 0, _ :: _ => none
  | fuel + 1, c :: rest =>
    if isVlSkip c then parse_value_listF fuel rest
    else if isVlChar c then
      let run := (c :: rest).takeWhile isVlChar
      match parse_value_listF fuel ((c :: rest).drop run.length) with
      | some vs => some (run.asString :: vs)
      | none => none
    else none

/-- `parse_value_list` (lib.rs lines 194-204). -/
def parse_value_list (cs : List Char) : Option (List String) :=
  parse_value_listF (cs.length + 1) cs

/-- Next token of the `SetToken` lexer (lib.rs lines 103-120).
Returns `(none, _)` at end of input, `(some none, _)` for an error token,
`(some (some t), rest)` for a token `t` with remaining input `rest`.
The `(` branch is the regex `\([\w\s,]+\)` with callback
`parse_value_list`; the word branch resolves the keyword/identifier
overlap by logos priority: the literal tokens `in`/`notin` win over the
regex `\w+` exactly when the maximal word run is the literal itself. -/
def setNext : List Char → Option (Option SetToken) × List Char
  | [] => (none, [])
  | c :: rest =>
    if isSkipChar c then setNext rest
    else if c = '!' then (some (some .Not), rest)
    else if c = '(' then
      let inner := rest.takeWhile isSetInner
      let after := rest.drop inner.length
      if inner ≠ [] ∧ after.take 1 = [')'] then
        match parse_value_list ('(' :: (inner ++ [')'])) with
        | some vs => (some (some (.ValuesList vs)), after.drop 1)
        | none => (some none, after.drop 1)
      else (some none, rest)
    else if isWordChar c then
      let run := (c :: rest).takeWhile isWordChar
      let tok : SetToken :=
        if run = ['i', 'n'] then .In
        else if run = ['n', 'o', 't', 'i', 'n'] then .NotIn
        else .Value run.asString
      (some (some tok), (c :: rest).drop run.length)
    else (some none, rest)

/-- `parse_set` (lib.rs lines 163-191).  Mirrors the Rust control flow:
`lexer.next()` returning `None` or an error token aborts with `none`
(the `?`/`.ok()?` chain); after a `Not` token only a `Value` yields
`DoesNotExist`; after a leading `Value`, end of input yields `Exists`,
otherwise the next two tokens must be `In`/`NotIn` and a `ValuesList`. -/
def parse_set (cs : List Char) : Option Expression :=
  match setNext cs with
  | (none, _) => none
  | (some none, _) => none
  | (some (some .Not), r1) =>
    match setNext r1 with
    | (some (some (.Value v)), _) => some (.DoesNotExist v)
    | _ => none
  | (some (some (.Value key)), r1) =>
    match setNext r1 with
    | (none, _) => some (.Exists key)
    | (some none, _) => none
    | (some (some op), r2) =>
      match setNext r2 with
      | (some (some value), _) =>
        match op, value with
        | .In, .ValuesList values => some (.In key (btreeOfList values))
        | .NotIn, .ValuesList values => some (.NotIn key (btreeOfList values))
        | _, _ => none
      | _ => none
  | (some (some _), _) => none

/-- Next token of the `EqualityToken` lexer (lib.rs lines 91-101):
skip `[ \t\n\f]`, then `==`/`=` (both `Equal`), `!=` (`NotEqual`) or a
maximal `[-./\w]+` run (`Value`); anything else is an error token. -/
def eqNext : List Char → Option (Option EqualityToken) × List Char
  | [] => (none, [])
  | c :: rest =>
    if isEqSkip c then eqNext rest
    else if c = '=' then
      if rest.take 1 = ['='] then (some (some .Equal), rest.drop 1)
      else (some (some .Equal), rest)
    else if c = '!' then
      if rest.take 1 = ['='] then (some (some .NotEqual), rest.drop 1)
      else (some none, rest)
    else if isKeyChar c then
      let run := (c :: rest).takeWhile isKeyChar
      (some (some (.Value run.asString)), (c :: rest).drop run.length)
    else (some none, rest)

/-- `parse_equality` (lib.rs lines 146-160): three tokens, which must be
`Value`, `Equal`/`NotEqual`, `Value`. -/
def parse_equality (cs : List Char) : Option Expression :=
  match eqNext cs with
  | (some (some k), r1) =>
    match eqNext r1 with
    | (some (some op), r2) =>
      match eqNext r2 with
      | (some (some v), _) =>
        match k, op, v with
        | .Value key, .Equal, .Value value => some (.Equal key value)
        | .Value key, .NotEqual, .Value value => some (.NotEqual key value)
        | _, _, _ => none
      | _ => none
    | _ => none
  | _ => none

/-- Length of the longest prefix of `cs` accepted by one of the set-style
patterns of `ParsedExpression` (lib.rs lines 67-70):
`\![-./\w]+`, `[-./\w]+`, `[-./\w]+\s+in\s+\([-.\w\s,]+\)` and
`[-./\w]+\s+notin\s+\([-.\w\s,]+\)`.  `0` means no pattern accepts.
Greedy sub-matches are forced because adjacent regex pieces draw from
disjoint character classes. -/
def setPatMatch (cs : List Char) : Nat :=
  match cs with
  | [] => 0
  | c :: rest =>
    if c = '!' then
      let r := (rest.takeWhile isKeyChar).length
      if r = 0 then 0 else r + 1
    else
      let k := ((c :: rest).takeWhile isKeyChar).length
      if k = 0 then 0
      else
        let rest1 := (c :: rest).drop k
        let ws1 := (rest1.takeWhile isSpaceChar).length
        let rest2 := rest1.drop ws1
        let kwLen :=
          if rest2.take 2 = ['i', 'n'] then 2
          else if rest2.take 5 = ['n', 'o', 't', 'i', 'n'] then 5
          else 0
        if ws1 = 0 ∨ kwLen = 0 then k
        else
          let rest3 := rest2.drop kwLen
          let ws2 := (rest3.takeWhile isSpaceChar).length
          let rest4 := rest3.drop ws2
          if ws2 = 0 ∨ rest4.take 1 ≠ ['('] then k
          else
            let inn := ((rest4.drop 1).takeWhile isTopInner).length
            if inn = 0 ∨ ((rest4.drop 1).drop inn).take 1 ≠ [')'] then k
            else k + ws1 + kwLen + ws2 + 1 + inn + 1

/-- Length of the longest prefix of `cs` accepted by one of the equality
patterns of `ParsedExpression` (lib.rs lines 71-73):
`[-./\w]+\s*=\s*[-.\w]+`, `[-./\w]+\s*==\s*[-.\w]+`,
`[-./\w]+\s*!=\s*[-.\w]+`.  `0` means no pattern accepts. -/
def eqPatMatch (cs : List Char) : Nat :=
  let k := (cs.takeWhile isKeyChar).length
  if k = 0 then 0
  else
    let rest1 := cs.drop k
    let ws1 := (rest1.takeWhile isSpaceChar).length
    let rest2 := rest1.drop ws1
    let opLen :=
      if rest2.take 2 = ['=', '='] then 2
      else if rest2.take 1 = ['='] then 1
      else if rest2.take 2 = ['!', '='] then 2
      else 0
    if opLen = 0 then 0
    else
      let rest3 := rest2.drop opLen
      let ws2 := (rest3.takeWhile isSpaceChar).length
      let rest4 := rest3.drop ws2
      let v := (rest4.takeWhile isValueChar).length
      if v = 0 then 0 else k + ws1 + opLen + ws2 + v

/-- Number of characters consumed by one `lexer.next()` attempt at a
non-separator position: the longest pattern match, or one character when
no pattern accepts (the error bump over an unrecognized character). -/
def tokenLen (cs : List Char) : Nat :=
  max (max (setPatMatch cs) (eqPatMatch cs)) 1

/-- Result of one fragment attempt at a non-separator position: the
longest-matching pattern group dispatches to its callback (`parse_set`
for lib.rs lines 67-70, `parse_equality` for lines 71-73); an unmatched
character or a failed callback becomes a `ParseError.StringParse`
carrying the slice and its byte span, as in lib.rs lines 130-143. -/
def fragResult (cs : List Char) (pos : Nat) : Except ParseError Expression :=
  let setLen := setPatMatch cs
  let eqLen := eqPatMatch cs
  let slice := cs.take (tokenLen cs)
  let sp : Span := ⟨pos, pos + byteLen slice⟩
  if setLen = 0 ∧ eqLen = 0 then .error (.StringParse slice.asString sp)
  else if setLen < eqLen then
    match parse_equality slice with
    | some e => .ok e
    | none => .error (.StringParse slice.asString sp)
  else
    match parse_set slice with
    | some e => .ok e
    | none => .error (.StringParse slice.asString sp)

/-- `parse_expression` (lib.rs lines 130-143): one `lexer.next()` step of
the `ParsedExpression` lexer at byte position `pos`, mapped through the
error reporting of `parse_expression`.  Returns `none` at end of input;
otherwise the fragment result, the remaining input and the new byte
position.  Separators `[, \t\n\f]` are skipped first. -/
def parse_expression (cs : List Char) (pos : Nat) :
    Option ((Except ParseError Expression) × List Char × Nat) :=
  match cs with
  | [] => none
  | c :: rest =>
    if isSkipChar c then parse_expression rest (pos + c.utf8Size)
    else
      some (fragResult (c :: rest) pos,
            (c :: rest).drop (tokenLen (c :: rest)),
            pos + byteLen ((c :: rest).take (tokenLen (c :: rest))))

/-- The full step-by-step result sequence: repeated `parse_expression`
calls until end of input.  Fuel dominates the recursion; each step
consumes at least one character. -/
def parseAllF : Nat → List Char → Nat → List (Except ParseError Expression)
  | 0, _, _ => []
  | fuel + 1, cs, pos =>
    match parse_expression cs pos with
    | none => []
    | some (r, cs', p') => r :: parseAllF fuel cs' p'

/-- Step-by-step result sequence of input `cs` lexed from byte position
`pos`. -/
def parseAllAt (cs : List Char) (pos : Nat) : List (Except ParseError Expression) :=
  parseAllF (cs.length + 1) cs pos

/-- Step-by-step result sequence of a whole input. -/
def parseAll (cs : List Char) : List (Except ParseError Expression) :=
  parseAllAt cs 0

/-- The loop body of `TryFrom<String> for Expressions` (lib.rs lines
77-89): `while let Some(value) = parse_expression(&mut lexer)?` — the
first error is returned, otherwise the parsed expressions are collected
in order. -/
def expressionsTryFromF : Nat → List Char → Nat → Except ParseError (List Expression)
  | 0, _, _ => .ok []
  | fuel + 1, cs, pos =>
    match parse_expression cs pos with
    | none => .ok []
    | some (.error e, _, _) => .error e
    | some (.ok x, cs', p') => (expressionsTryFromF fuel cs' p').map (x :: ·)

/-- `Expressions::try_from(selector)` (lib.rs lines 77-89), as the list of
parsed expressions or the first error. -/
def expressionsTryFrom (cs : List Char) : Except ParseError (List Expression) :=
  expressionsTryFromF (cs.length + 1) cs 0

/-! ### Character-class facts -/

theorem isKeyChar_of_word {c : Char} (h : isWordChar c = true) : isKeyChar c = true := by
  simp [isKeyChar, h]

theorem isKeyChar_of_value {c : Char} (h : isValueChar c = true) : isKeyChar c = true := by
  simp only [isValueChar, Bool.or_eq_true, beq_iff_eq] at h
  simp only [isKeyChar, Bool.or_eq_true, beq_iff_eq]
  tauto

theorem not_skip_of_key {c : Char} (h : isKeyChar c = true) : isSkipChar c = false := by
  cases hs : isSkipChar c with
  | false => rfl
  | true =>
    exfalso
    simp only [isSkipChar, Bool.or_eq_true, beq_iff_eq] at hs
    rcases hs with (((rfl | rfl) | rfl) | rfl) | rfl <;> exact absurd h (by decide)

theorem not_eqskip_of_key {c : Char} (h : isKeyChar c = true) : isEqSkip c = false := by
  cases hs : isEqSkip c with
  | false => rfl
  | true =>
    exfalso
    simp only [isEqSkip, Bool.or_eq_true, beq_iff_eq] at hs
    rcases hs with ((rfl | rfl) | rfl) | rfl <;> exact absurd h (by decide)

theorem not_space_of_key {c : Char} (h : isKeyChar c = true) : isSpaceChar c = false := by
  cases hs : isSpaceChar c with
  | false => rfl
  | true =>
    exfalso
    simp only [isSpaceChar, Bool.or_eq_true, beq_iff_eq] at hs
    rcases hs with ((((rfl | rfl) | rfl) | rfl) | rfl) | rfl <;> exact absurd h (by decide)

theorem key_ne_eqch {c : Char} (h : isKeyChar c = true) : c ≠ '=' := by
  rintro rfl; exact absurd h (by decide)

theorem key_ne_bang {c : Char} (h : isKeyChar c = true) : c ≠ '!' := by
  rintro rfl; exact absurd h (by decide)

theorem key_ne_lparen {c : Char} (h : isKeyChar c = true) : c ≠ '(' := by
  rintro rfl; exact absurd h (by decide)

/-! ### List and byte-length helpers -/

theorem takeWhile_append_of_all {p : Char → Bool} :
    ∀ {l r : List Char}, (∀ c ∈ l, p c = true) →
      (l ++ r).takeWhile p = l ++ r.takeWhile p := by
  intro l
  induction l with
  | nil => intro r _; simp
  | cons a l ih =>
    intro r h
    have ha : p a = true := h a (by simp)
    simp only [List.cons_append, List.takeWhile_cons_of_pos ha]
    rw [ih fun c hc => h c (by simp [hc])]

theorem takeWhile_all {p : Char → Bool} {l : List Char} (h : ∀ c ∈ l, p c = true) :
    l.takeWhile p = l := by
  simpa using takeWhile_append_of_all (r := []) h

theorem byteLen_cons (c : Char) (l : List Char) :
    byteLen (c :: l) = c.utf8Size + byteLen l := by
  simp [byteLen]

theorem byteLen_append (l r : List Char) :
    byteLen (l ++ r) = byteLen l + byteLen r := by
  simp [byteLen]

/-! ### Structural facts about one lexer step -/

theorem parse_expression_cons_skip {c : Char} {rest : List Char} {pos : Nat}
    (h : isSkipChar c = true) :
    parse_expression (c :: rest) pos = parse_expression rest (pos + c.utf8Size) := by
  simp [parse_expression, h]

theorem parse_expression_cons_tok {c : Char} {rest : List Char} {pos : Nat}
    (h : isSkipChar c = false) :
    parse_expression (c :: rest) pos =
      some (fragResult (c :: rest) pos,
            (c :: rest).drop (tokenLen (c :: rest)),
            pos + byteLen ((c :: rest).take (tokenLen (c :: rest)))) := by
  simp [parse_expression, h]

theorem tokenLen_pos (cs : List Char) : 1 ≤ tokenLen cs := by
  simp [tokenLen]

theorem parse_expression_consume :
    ∀ {cs : List Char} {pos : Nat} {r : Except ParseError Expression}
      {cs' : List Char} {p' : Nat},
      parse_expression cs pos = some (r, cs', p') → cs'.length < cs.length := by
  intro cs
  induction cs with
  | nil => intro pos r cs' p' h; simp [parse_expression] at h
  | cons c rest ih =>
    intro pos r cs' p' h
    cases hc : isSkipChar c with
    | true =>
      rw [parse_expression_cons_skip hc] at h
      exact Nat.lt_trans (ih h) (Nat.lt_succ_self _)
    | false =>
      rw [parse_expression_cons_tok hc] at h
      simp only [Option.some.injEq, Prod.mk.injEq] at h
      obtain ⟨-, h2, -⟩ := h
      have hn := tokenLen_pos (c :: rest)
      rw [← h2]
      simp only [List.length_drop, List.length_cons]
      omega

theorem parse_expression_decomp :
    ∀ {cs : List Char} {pos : Nat} {r : Except ParseError Expression}
      {cs' : List Char} {p' : Nat},
      parse_expression cs pos = some (r, cs', p') →
      ∃ pre, cs = pre ++ cs' ∧ p' = pos + byteLen pre := by
  intro cs
  induction cs with
  | nil => intro pos r cs' p' h; simp [parse_expression] at h
  | cons c rest ih =>
    intro pos r cs' p' h
    cases hc : isSkipChar c with
    | true =>
      rw [parse_expression_cons_skip hc] at h
      obtain ⟨pre, hpre, hp⟩ := ih h
      refine ⟨c :: pre, by simp [hpre], ?_⟩
      rw [byteLen_cons]
      omega
    | false =>
      rw [parse_expression_cons_tok hc] at h
      simp only [Option.some.injEq, Prod.mk.injEq] at h
      obtain ⟨-, h2, h3⟩ := h
      refine ⟨(c :: rest).take (tokenLen (c :: rest)), ?_, h3.symm⟩
      rw [← h2]
      exact (List.take_append_drop _ _).symm

theorem fragResult_error {cs : List Char} {pos : Nat} {pe : ParseError}
    (h : fragResult cs pos = .error pe) :
    pe = .StringParse (cs.take (tokenLen cs)).asString
      ⟨pos, pos + byteLen (cs.take (tokenLen cs))⟩ := by
  simp only [fragResult] at h
  split at h
  · injection h with h; exact h.symm
  · split at h
    · rcases hpe : parse_equality (cs.take (tokenLen cs)) with _ | e' <;> rw [hpe] at h
      · injection h with h; exact h.symm
      · simp at h
    · rcases hps : parse_set (cs.take (tokenLen cs)) with _ | e' <;> rw [hps] at h
      · injection h with h; exact h.symm
      · simp at h

theorem fragResult_ok {cs : List Char} {pos : Nat} {e : Expression}
    (h : fragResult cs pos = .ok e) :
    (∃ sl, parse_set sl = some e) ∨ ∃ sl, parse_equality sl = some e := by
  simp only [fragResult] at h
  split at h
  · simp at h
  · split at h
    · rcases hpe : parse_equality (cs.take (tokenLen cs)) with _ | e' <;> rw [hpe] at h
      · simp at h
      · right
        injection h with h
        exact ⟨cs.take (tokenLen cs), by rw [hpe, h]⟩
    · rcases hps : parse_set (cs.take (tokenLen cs)) with _ | e' <;> rw [hps] at h
      · simp at h
      · left
        injection h with h
        exact ⟨cs.take (tokenLen cs), by rw [hps, h]⟩

theorem parse_expression_error :
    ∀ {cs : List Char} {pos : Nat} {t : String} {sp : Span} {cs' : List Char} {p' : Nat},
      parse_expression cs pos = some (.error (.StringParse t sp), cs', p') →
      ∃ sk mid, cs = sk ++ mid ++ cs' ∧ t = mid.asString ∧
        sp.start = pos + byteLen sk ∧ sp.stop = sp.start + byteLen mid ∧ p' = sp.stop := by
  intro cs
  induction cs with
  | nil => intro pos t sp cs' p' h; simp [parse_expression] at h
  | cons c rest ih =>
    intro pos t sp cs' p' h
    cases hc : isSkipChar c with
    | true =>
      rw [parse_expression_cons_skip hc] at h
      obtain ⟨sk, mid, hsplit, ht, hstart, hstop, hp⟩ := ih h
      refine ⟨c :: sk, mid, by simp [hsplit], ht, ?_, hstop, hp⟩
      rw [byteLen_cons]
      omega
    | false =>
      rw [parse_expression_cons_tok hc] at h
      simp only [Option.some.injEq, Prod.mk.injEq] at h
      obtain ⟨h1, h2, h3⟩ := h
      have := fragResult_error h1
      injection this with ht hsp
      refine ⟨[], (c :: rest).take (tokenLen (c :: rest)), ?_, ht, ?_, ?_, ?_⟩
      · rw [← h2]
        simp [List.take_append_drop]
      · rw [hsp]; simp [byteLen]
      · rw [hsp]
      · rw [hsp]
        exact h3.symm

theorem parse_expression_ok :
    ∀ {cs : List Char} {pos : Nat} {e : Expression} {cs' : List Char} {p' : Nat},
      parse_expression cs pos = some (.ok e, cs', p') →
      (∃ sl, parse_set sl = some e) ∨ ∃ sl, parse_equality sl = some e := by
  intro cs
  induction cs with
  | nil => intro pos e cs' p' h; simp [parse_expression] at h
  | cons c rest ih =>
    intro pos e cs' p' h
    cases hc : isSkipChar c with
    | true =>
      rw [parse_expression_cons_skip hc] at h
      exact ih h
    | false =>
      rw [parse_expression_cons_tok hc] at h
      simp only [Option.some.injEq, Prod.mk.injEq] at h
      exact fragResult_ok h.1

/-! ### Fuel adequacy and driver facts -/

theorem parseAllF_nil (fuel : Nat) (pos : Nat) : parseAllF fuel [] pos = [] := by
  cases fuel <;> simp [parseAllF, parse_expression]

theorem parseAllF_stable :
    ∀ (fuel₁ : Nat) {fuel₂ : Nat} {cs : List Char} {pos : Nat},
      cs.length + 1 ≤ fuel₁ → cs.length + 1 ≤ fuel₂ →
      parseAllF fuel₁ cs pos = parseAllF fuel₂ cs pos := by
  intro fuel₁
  induction fuel₁ with
  | zero => intro fuel₂ cs pos h₁ _; omega
  | succ f ih =>
    intro fuel₂ cs pos h₁ h₂
    cases fuel₂ with
    | zero => omega
    | succ g =>
      simp only [parseAllF]
      cases hstep : parse_expression cs pos with
      | none => rfl
      | some v =>
        obtain ⟨r, cs', p'⟩ := v
        have hlt := parse_expression_consume hstep
        dsimp only
        congr 1
        exact ih (by omega) (by omega)

theorem parseAll_eq_parseAllAt (cs : List Char) : parseAll cs = parseAllAt cs 0 := rfl

/-! ### Separator-skip facts -/

theorem parse_expression_skip_sep :
    ∀ {sep : List Char} (s : List Char) (pos : Nat),
      (∀ c ∈ sep, isSkipChar c = true) →
      parse_expression (sep ++ s) pos = parse_expression s (pos + byteLen sep) := by
  intro sep
  induction sep with
  | nil => intro s pos _; simp [byteLen]
  | cons c sep ih =>
    intro s pos h
    have hc : isSkipChar c = true := h c (by simp)
    rw [List.cons_append, parse_expression_cons_skip hc,
      ih s (pos + c.utf8Size) fun d hd => h d (by simp [hd]), byteLen_cons]
    ring_nf

theorem parseAllF_skip_sep (fuel : Nat) {sep : List Char} (s : List Char) (pos : Nat)
    (h : ∀ c ∈ sep, isSkipChar c = true) :
    parseAllF fuel (sep ++ s) pos = parseAllF fuel s (pos + byteLen sep) := by
  cases fuel with
  | zero => rfl
  | succ f => simp only [parseAllF, parse_expression_skip_sep s pos h]

/-! ### Error decomposition and expression provenance through the driver -/

theorem parseAllF_error_decomp :
    ∀ (fuel : Nat) {cs : List Char} {pos : Nat} {t : String} {sp : Span},
      .error (.StringParse t sp) ∈ parseAllF fuel cs pos →
      ∃ pre mid post, cs = pre ++ mid ++ post ∧ t = mid.asString ∧
        sp.start = pos + byteLen pre ∧ sp.stop = sp.start + byteLen mid := by
  intro fuel
  induction fuel with
  | zero => intro cs pos t sp h; simp [parseAllF] at h
  | succ f ih =>
    intro cs pos t sp h
    rw [parseAllF] at h
    cases hstep : parse_expression cs pos with
    | none => rw [hstep] at h; simp at h
    | some v =>
      obtain ⟨r, cs', p'⟩ := v
      rw [hstep] at h
      rcases List.mem_cons.mp h with hhead | htail
      · subst hhead
        obtain ⟨sk, mid, hsplit, ht, hstart, hstop, -⟩ := parse_expression_error hstep
        exact ⟨sk, mid, cs', hsplit, ht, hstart, hstop⟩
      · obtain ⟨pre', mid, post, hsplit, ht, hstart, hstop⟩ := ih htail
        obtain ⟨pre0, hpre0, hp'⟩ := parse_expression_decomp hstep
        refine ⟨pre0 ++ pre', mid, post, ?_, ht, ?_, hstop⟩
        · rw [hpre0, hsplit]
          simp
        · rw [hstart, hp', byteLen_append]
          omega

theorem parseAllF_ok_src :
    ∀ (fuel : Nat) {cs : List Char} {pos : Nat} {e : Expression},
      .ok e ∈ parseAllF fuel cs pos →
      (∃ sl, parse_set sl = some e) ∨ ∃ sl, parse_equality sl = some e := by
  intro fuel
  induction fuel with
  | zero => intro cs pos e h; simp [parseAllF] at h
  | succ f ih =>
    intro cs pos e h
    rw [parseAllF] at h
    cases hstep : parse_expression cs pos with
    | none => rw [hstep] at h; simp at h
    | some v =>
      obtain ⟨r, cs', p'⟩ := v
      rw [hstep] at h
      rcases List.mem_cons.mp h with hhead | htail
      · subst hhead
        exact parse_expression_ok hstep
      · exact ih htail

/-! ### The one-shot entry point versus the step sequence -/

theorem expressionsTryFromF_spec :
    ∀ (fuel : Nat) (cs : List Char) (pos : Nat),
      match expressionsTryFromF fuel cs pos with
      | .ok l => parseAllF fuel cs pos = l.map .ok
      | .error e => ∃ (pre : List Expression) (post : List (Except ParseError Expression)),
          parseAllF fuel cs pos = pre.map .ok ++ .error e :: post := by
  intro fuel
  induction fuel with
  | zero => intro cs pos; simp [expressionsTryFromF, parseAllF]
  | succ f ih =>
    intro cs pos
    cases hstep : parse_expression cs pos with
    | none => simp [expressionsTryFromF, parseAllF, hstep]
    | some v =>
      obtain ⟨r, cs', p'⟩ := v
      cases r with
      | error e =>
        simp only [expressionsTryFromF, parseAllF, hstep]
        exact ⟨[], parseAllF f cs' p', by simp⟩
      | ok x =>
        have := ih cs' p'
        cases hrec : expressionsTryFromF f cs' p' with
        | ok l =>
          rw [hrec] at this
          simp only [expressionsTryFromF, parseAllF, hstep, hrec, Except.map]
          simp [this]
        | error e =>
          rw [hrec] at this
          obtain ⟨pre, post, hseq⟩ := this
          simp only [expressionsTryFromF, parseAllF, hstep, hrec, Except.map]
          exact ⟨x :: pre, post, by simp [hseq]⟩

/-! ### The string order underlying the value sets -/

theorem charListLt_irrefl : ∀ l : List Char, charListLt l l = false := by
  intro l
  induction l with
  | nil => rfl
  | cons a as ih => simp [charListLt, lt_self_iff_false, ih]

theorem charListLt_trans :
    ∀ {a b c : List Char}, charListLt a b = true → charListLt b c = true →
      charListLt a c = true := by
  intro a
  induction a with
  | nil =>
    intro b c hab hbc
    cases b with
    | nil => simp [charListLt] at hab
    | cons b₀ bs =>
      cases c with
      | nil => simp [charListLt] at hbc
      | cons c₀ cs => rfl
  | cons a₀ as ih =>
    intro b c hab hbc
    cases b with
    | nil => simp [charListLt] at hab
    | cons b₀ bs =>
      cases c with
      | nil => simp [charListLt] at hbc
      | cons c₀ cs =>
        simp only [charListLt] at hab hbc ⊢
        by_cases h1 : a₀ < b₀
        · by_cases h2 : b₀ < c₀
          · simp [lt_trans h1 h2]
          · by_cases h3 : c₀ < b₀
            · simp [h2, h3] at hbc
            · have hbc' : b₀ = c₀ := le_antisymm (le_of_not_lt h3) (le_of_not_lt h2)
              subst hbc'
              simp [h1]
        · by_cases h1' : b₀ < a₀
          · simp [h1, h1'] at hab
          · have hab' : a₀ = b₀ := le_antisymm (le_of_not_lt h1') (le_of_not_lt h1)
            subst hab'
            simp only [if_neg h1, if_neg h1'] at hab
            by_cases h2 : a₀ < c₀
            · simp [h2]
            · by_cases h3 : c₀ < a₀
              · simp [h2, h3] at hbc
              · have hbc' : a₀ = c₀ := le_antisymm (le_of_not_lt h3) (le_of_not_lt h2)
                subst hbc'
                simp only [if_neg h2, if_neg h3] at hbc ⊢
                exact ih hab hbc

theorem charListLt_total :
    ∀ {a b : List Char}, a ≠ b → charListLt a b = true ∨ charListLt b a = true := by
  intro a
  induction a with
  | nil =>
    intro b hne
    cases b with
    | nil => exact absurd rfl hne
    | cons b₀ bs => left; rfl
  | cons a₀ as ih =>
    intro b hne
    cases b with
    | nil => right; rfl
    | cons b₀ bs =>
      rcases lt_trichotomy a₀ b₀ with h | h | h
      · left; simp [charListLt, h]
      · subst h
        have hne' : as ≠ bs := fun hh => hne (by rw [hh])
        rcases ih hne' with hlt | hlt
        · left; simp [charListLt, lt_self_iff_false, hlt]
        · right; simp [charListLt, lt_self_iff_false, hlt]
      · right; simp [charListLt, h, lt_asymm h]

theorem strLt_irrefl (a : String) : strLt a a = false :=
  charListLt_irrefl a.data

theorem strLt_trans {a b c : String} (h1 : strLt a b = true) (h2 : strLt b c = true) :
    strLt a c = true :=
  charListLt_trans h1 h2

theorem strLt_total {a b : String} (h : a ≠ b) : strLt a b = true ∨ strLt b a = true := by
  refine charListLt_total fun hd => h ?_
  cases a
  cases b
  exact congrArg String.mk (by simpa using hd)

theorem strLt_ne {a b : String} (h : strLt a b = true) : a ≠ b := by
  rintro rfl
  rw [strLt_irrefl] at h
  exact absurd h (by simp)

/-! ### Sortedness of the set model -/

theorem mem_btreeInsert {y v : String} :
    ∀ {l : List String}, y ∈ btreeInsert v l → y = v ∨ y ∈ l := by
  intro l
  induction l with
  | nil =>
    intro h
    simp only [btreeInsert, List.mem_singleton] at h
    exact Or.inl h
  | cons x xs ih =>
    intro h
    simp only [btreeInsert] at h
    split at h
    · rcases List.mem_cons.mp h with h | h
      · exact Or.inl h
      · exact Or.inr h
    · split at h
      · exact Or.inr h
      · rcases List.mem_cons.mp h with rfl | h
        · exact Or.inr (List.mem_cons_self _ _)
        · rcases ih h with h | h
          · exact Or.inl h
          · exact Or.inr (List.mem_cons_of_mem _ h)

theorem btreeInsert_pairwise {v : String} :
    ∀ {l : List String}, l.Pairwise (fun a b => strLt a b = true) →
      (btreeInsert v l).Pairwise (fun a b => strLt a b = true) := by
  intro l
  induction l with
  | nil => intro _; simp [btreeInsert]
  | cons x xs ih =>
    intro h
    rcases List.pairwise_cons.mp h with ⟨hx, hxs⟩
    simp only [btreeInsert]
    split
    · rename_i hvx
      refine List.pairwise_cons.mpr ⟨?_, h⟩
      intro y hy
      rcases List.mem_cons.mp hy with rfl | hy
      · exact hvx
      · exact strLt_trans hvx (hx y hy)
    · split
      · exact h
      · rename_i hnvx hne
        have hxv : strLt x v = true := by
          rcases strLt_total (fun hh : v = x => hne hh) with h' | h'
          · exact absurd h' hnvx
          · exact h'
        refine List.pairwise_cons.mpr ⟨?_, ih hxs⟩
        intro y hy
        rcases mem_btreeInsert hy with rfl | hy
        · exact hxv
        · exact hx y hy

theorem btreeOfList_pairwise_aux :
    ∀ (l acc : List String), acc.Pairwise (fun a b => strLt a b = true) →
      (l.foldl (fun acc v => btreeInsert v acc) acc).Pairwise
        (fun a b => strLt a b = true) := by
  intro l
  induction l with
  | nil => intro acc h; simpa using h
  | cons v l ih => intro acc h; exact ih _ (btreeInsert_pairwise h)

theorem btreeOfList_pairwise (l : List String) :
    (btreeOfList l).Pairwise (fun a b => strLt a b = true) :=
  btreeOfList_pairwise_aux l [] (by simp)

theorem btreeOfList_nodup (l : List String) : (btreeOfList l).Nodup :=
  (btreeOfList_pairwise l).imp fun h => strLt_ne h

/-! ### Provenance of parsed expressions -/

theorem parse_set_in_values {cs : List Char} {k : String} {vs : List String}
    (h : parse_set cs = some (.In k vs)) : ∃ l, vs = btreeOfList l := by
  simp only [parse_set] at h
  repeat' split at h
  all_goals simp_all
  obtain ⟨-, h2⟩ := h
  exact ⟨_, h2.symm⟩

theorem parse_set_notin_values {cs : List Char} {k : String} {vs : List String}
    (h : parse_set cs = some (.NotIn k vs)) : ∃ l, vs = btreeOfList l := by
  simp only [parse_set] at h
  repeat' split at h
  all_goals simp_all
  obtain ⟨-, h2⟩ := h
  exact ⟨_, h2.symm⟩

theorem parse_equality_shape {cs : List Char} {e : Expression}
    (h : parse_equality cs = some e) :
    ∃ k v, e = .Equal k v ∨ e = .NotEqual k v := by
  simp only [parse_equality] at h
  repeat' split at h
  all_goals simp_all
  · exact ⟨_, _, Or.inl h.symm⟩
  · exact ⟨_, _, Or.inr h.symm⟩

/-! ### Computation of the equality fragment forms -/

theorem takeWhile_run {p : Char → Bool} {l : List Char} {c : Char} {r : List Char}
    (hl : ∀ d ∈ l, p d = true) (hc : p c = false) :
    (l ++ c :: r).takeWhile p = l := by
  rw [takeWhile_append_of_all hl, List.takeWhile_cons_of_neg (by simp [hc]), List.append_nil]

theorem eqNext_run {l r : List Char} (hne : l ≠ [])
    (hl : ∀ d ∈ l, isKeyChar d = true) (hr : r.takeWhile isKeyChar = []) :
    eqNext (l ++ r) = (some (some (.Value l.asString)), r) := by
  cases l with
  | nil => exact absurd rfl hne
  | cons k₀ ktl =>
    have hk₀ : isKeyChar k₀ = true := hl k₀ (by simp)
    have hrun : ((k₀ :: ktl) ++ r).takeWhile isKeyChar = k₀ :: ktl := by
      rw [takeWhile_append_of_all hl, hr, List.append_nil]
    have hdrop : ((k₀ :: ktl) ++ r).drop (k₀ :: ktl).length = r := List.drop_left _ _
    rw [List.cons_append] at hrun hdrop ⊢
    simp [eqNext, not_eqskip_of_key hk₀, key_ne_eqch hk₀, key_ne_bang hk₀, hk₀, hrun, hdrop]

theorem eqNext_single_eq {v₀ : Char} {vtl : List Char} (hne : v₀ ≠ '=') :
    eqNext ('=' :: v₀ :: vtl) = (some (some .Equal), v₀ :: vtl) := by
  have h1 : isEqSkip '=' = false := by decide
  simp [eqNext, h1, hne]

theorem eqNext_double_eq (value : List Char) :
    eqNext ('=' :: '=' :: value) = (some (some .Equal), value) := by
  have h1 : isEqSkip '=' = false := by decide
  simp [eqNext, h1]

theorem eqNext_bang_eq (value : List Char) :
    eqNext ('!' :: '=' :: value) = (some (some .NotEqual), value) := by
  have h1 : isEqSkip '!' = false := by decide
  have h2 : ('!' : Char) ≠ '=' := by decide
  simp [eqNext, h1, h2]

theorem parse_equality_eq_form {key value : List Char} (hknil : key ≠ []) (hvnil : value ≠ [])
    (hk : ∀ d ∈ key, isKeyChar d = true) (hv : ∀ d ∈ value, isValueChar d = true) :
    parse_equality (key ++ '=' :: value) = some (.Equal key.asString value.asString) := by
  have hkv : ∀ d ∈ value, isKeyChar d = true := fun d hd => isKeyChar_of_value (hv d hd)
  obtain ⟨v₀, vtl, rfl⟩ := List.exists_cons_of_ne_nil hvnil
  have hv₀ : isKeyChar v₀ = true := hkv v₀ (by simp)
  have h1 : eqNext (key ++ '=' :: v₀ :: vtl) =
      (some (some (.Value key.asString)), '=' :: v₀ :: vtl) :=
    eqNext_run hknil hk (List.takeWhile_cons_of_neg (by decide))
  have h2 : eqNext ('=' :: v₀ :: vtl) = (some (some .Equal), v₀ :: vtl) :=
    eqNext_single_eq (key_ne_eqch hv₀)
  have h3 : eqNext ((v₀ :: vtl) ++ []) = (some (some (.Value (v₀ :: vtl).asString)), []) :=
    eqNext_run (by simp) hkv rfl
  rw [List.append_nil] at h3
  simp [parse_equality, h1, h2, h3]

theorem parse_equality_eqeq_form {key value : List Char} (hknil : key ≠ []) (hvnil : value ≠ [])
    (hk : ∀ d ∈ key, isKeyChar d = true) (hv : ∀ d ∈ value, isValueChar d = true) :
    parse_equality (key ++ '=' :: '=' :: value) = some (.Equal key.asString value.asString) := by
  have hkv : ∀ d ∈ value, isKeyChar d = true := fun d hd => isKeyChar_of_value (hv d hd)
  have h1 : eqNext (key ++ '=' :: '=' :: value) =
      (some (some (.Value key.asString)), '=' :: '=' :: value) :=
    eqNext_run hknil hk (List.takeWhile_cons_of_neg (by decide))
  have h2 : eqNext ('=' :: '=' :: value) = (some (some .Equal), value) :=
    eqNext_double_eq value
  have h3 : eqNext (value ++ []) = (some (some (.Value value.asString)), []) :=
    eqNext_run hvnil hkv rfl
  rw [List.append_nil] at h3
  simp [parse_equality, h1, h2, h3]

theorem parse_equality_ne_form {key value : List Char} (hknil : key ≠ []) (hvnil : value ≠ [])
    (hk : ∀ d ∈ key, isKeyChar d = true) (hv : ∀ d ∈ value, isValueChar d = true) :
    parse_equality (key ++ '!' :: '=' :: value) =
      some (.NotEqual key.asString value.asString) := by
  have hkv : ∀ d ∈ value, isKeyChar d = true := fun d hd => isKeyChar_of_value (hv d hd)
  have h1 : eqNext (key ++ '!' :: '=' :: value) =
      (some (some (.Value key.asString)), '!' :: '=' :: value) :=
    eqNext_run hknil hk (List.takeWhile_cons_of_neg (by decide))
  have h2 : eqNext ('!' :: '=' :: value) = (some (some .NotEqual), value) :=
    eqNext_bang_eq value
  have h3 : eqNext (value ++ []) = (some (some (.Value value.asString)), []) :=
    eqNext_run hvnil hkv rfl
  rw [List.append_nil] at h3
  simp [parse_equality, h1, h2, h3]

theorem setPatMatch_stops {key : List Char} {c : Char} {r : List Char} (hne : key ≠ [])
    (hk : ∀ d ∈ key, isKeyChar d = true) (hc : isKeyChar c = false)
    (hsp : isSpaceChar c = false) :
    setPatMatch (key ++ c :: r) = key.length := by
  cases key with
  | nil => exact absurd rfl hne
  | cons k₀ ktl =>
    have hk₀ : isKeyChar k₀ = true := hk k₀ (by simp)
    have hrun : ((k₀ :: ktl) ++ c :: r).takeWhile isKeyChar = k₀ :: ktl :=
      takeWhile_run hk hc
    have hdrop : ((k₀ :: ktl) ++ c :: r).drop (k₀ :: ktl).length = c :: r :=
      List.drop_left _ _
    have hws : (c :: r).takeWhile isSpaceChar = [] :=
      List.takeWhile_cons_of_neg (by simp [hsp])
    rw [List.cons_append] at hrun hdrop ⊢
    simp [setPatMatch, key_ne_bang hk₀, hrun, hdrop, hws]

theorem eqPatMatch_eq_form {key value : List Char} (hknil : key ≠ []) (hvnil : value ≠ [])
    (hk : ∀ d ∈ key, isKeyChar d = true) (hv : ∀ d ∈ value, isValueChar d = true) :
    eqPatMatch (key ++ '=' :: value) = key.length + 1 + value.length := by
  have hkv : ∀ d ∈ value, isKeyChar d = true := fun d hd => isKeyChar_of_value (hv d hd)
  obtain ⟨v₀, vtl, rfl⟩ := List.exists_cons_of_ne_nil hvnil
  have hv₀ : isKeyChar v₀ = true := hkv v₀ (by simp)
  have hrun : (key ++ '=' :: v₀ :: vtl).takeWhile isKeyChar = key :=
    takeWhile_run hk (by decide)
  have hdrop : (key ++ '=' :: v₀ :: vtl).drop key.length = '=' :: v₀ :: vtl :=
    List.drop_left _ _
  have hws1 : ('=' :: v₀ :: vtl).takeWhile isSpaceChar = [] :=
    List.takeWhile_cons_of_neg (by decide)
  have hws2 : (v₀ :: vtl).takeWhile isSpaceChar = [] :=
    List.takeWhile_cons_of_neg (by simp [not_space_of_key hv₀])
  have hvrun : (v₀ :: vtl).takeWhile isValueChar = v₀ :: vtl := takeWhile_all hv
  have hkne : key.length ≠ 0 := by
    simpa using fun hh => hknil (List.eq_nil_of_length_eq_zero hh)
  simp [eqPatMatch, hrun, hdrop, hws1, hws2, hvrun, hkne, key_ne_eqch hv₀]

theorem eqPatMatch_eqeq_form {key value : List Char} (hknil : key ≠ []) (hvnil : value ≠ [])
    (hk : ∀ d ∈ key, isKeyChar d = true) (hv : ∀ d ∈ value, isValueChar d = true) :
    eqPatMatch (key ++ '=' :: '=' :: value) = key.length + 2 + value.length := by
  have hkv : ∀ d ∈ value, isKeyChar d = true := fun d hd => isKeyChar_of_value (hv d hd)
  obtain ⟨v₀, vtl, rfl⟩ := List.exists_cons_of_ne_nil hvnil
  have hv₀ : isKeyChar v₀ = true := hkv v₀ (by simp)
  have hrun : (key ++ '=' :: '=' :: v₀ :: vtl).takeWhile isKeyChar = key :=
    takeWhile_run hk (by decide)
  have hdrop : (key ++ '=' :: '=' :: v₀ :: vtl).drop key.length = '=' :: '=' :: v₀ :: vtl :=
    List.drop_left _ _
  have hws1 : ('=' :: '=' :: v₀ :: vtl).takeWhile isSpaceChar = [] :=
    List.takeWhile_cons_of_neg (by decide)
  have hws2 : (v₀ :: vtl).takeWhile isSpaceChar = [] :=
    List.takeWhile_cons_of_neg (by simp [not_space_of_key hv₀])
  have hvrun : (v₀ :: vtl).takeWhile isValueChar = v₀ :: vtl := takeWhile_all hv
  have hkne : key.length ≠ 0 := by
    simpa using fun hh => hknil (List.eq_nil_of_length_eq_zero hh)
  simp [eqPatMatch, hrun, hdrop, hws1, hws2, hvrun, hkne]

theorem eqPatMatch_ne_form {key value : List Char} (hknil : key ≠ []) (hvnil : value ≠ [])
    (hk : ∀ d ∈ key, isKeyChar d = true) (hv : ∀ d ∈ value, isValueChar d = true) :
    eqPatMatch (key ++ '!' :: '=' :: value) = key.length + 2 + value.length := by
  have hkv : ∀ d ∈ value, isKeyChar d = true := fun d hd => isKeyChar_of_value (hv d hd)
  obtain ⟨v₀, vtl, rfl⟩ := List.exists_cons_of_ne_nil hvnil
  have hv₀ : isKeyChar v₀ = true := hkv v₀ (by simp)
  have hrun : (key ++ '!' :: '=' :: v₀ :: vtl).takeWhile isKeyChar = key :=
    takeWhile_run hk (by decide)
  have hdrop : (key ++ '!' :: '=' :: v₀ :: vtl).drop key.length = '!' :: '=' :: v₀ :: vtl :=
    List.drop_left _ _
  have hws1 : ('!' :: '=' :: v₀ :: vtl).takeWhile isSpaceChar = [] :=
    List.takeWhile_cons_of_neg (by decide)
  have hws2 : (v₀ :: vtl).takeWhile isSpaceChar = [] :=
    List.takeWhile_cons_of_neg (by simp [not_space_of_key hv₀])
  have hvrun : (v₀ :: vtl).takeWhile isValueChar = v₀ :: vtl := takeWhile_all hv
  have hkne : key.length ≠ 0 := by
    simpa using fun hh => hknil (List.eq_nil_of_length_eq_zero hh)
  simp [eqPatMatch, hrun, hdrop, hws1, hws2, hvrun, hkne]

theorem parseAll_single {c : Char} {rest : List Char} (hskip : isSkipChar c = false)
    (htok : tokenLen (c :: rest) = (c :: rest).length) :
    parseAll (c :: rest) = [fragResult (c :: rest) 0] := by
  have hd : (c :: rest).drop (tokenLen (c :: rest)) = [] := by
    rw [htok]
    exact List.drop_length _
  simp only [parseAll, parseAllAt, List.length_cons, parseAllF,
    parse_expression_cons_tok hskip, hd, parse_expression, hskip,
    Bool.false_eq_true, if_false]

theorem fragResult_dispatch_eq {cs : List Char} {e : Expression}
    (hlt : setPatMatch cs < eqPatMatch cs) (htok : tokenLen cs = cs.length)
    (hpe : parse_equality cs = some e) :
    fragResult cs 0 = .ok e := by
  have hne : ¬ (setPatMatch cs = 0 ∧ eqPatMatch cs = 0) := by omega
  have hslice : cs.take (tokenLen cs) = cs := by
    rw [htok]
    exact List.take_length _
  simp only [fragResult, hslice, if_neg hne, if_pos hlt, hpe]

theorem parseAll_eq_op {key value : List Char} (hknil : key ≠ []) (hvnil : value ≠ [])
    (hk : ∀ d ∈ key, isKeyChar d = true) (hv : ∀ d ∈ value, isValueChar d = true) :
    parseAll (key ++ '=' :: value) = [.ok (.Equal key.asString value.asString)] := by
  have hset : setPatMatch (key ++ '=' :: value) = key.length :=
    setPatMatch_stops hknil hk (by decide) (by decide)
  have heq : eqPatMatch (key ++ '=' :: value) = key.length + 1 + value.length :=
    eqPatMatch_eq_form hknil hvnil hk hv
  have hvpos : 1 ≤ value.length := List.length_pos.mpr hvnil
  have hlen : (key ++ '=' :: value).length = key.length + 1 + value.length := by
    simp
    omega
  have htok : tokenLen (key ++ '=' :: value) = (key ++ '=' :: value).length := by
    simp only [tokenLen, hset, heq, hlen]
    omega
  have hfrag : fragResult (key ++ '=' :: value) 0 =
      .ok (.Equal key.asString value.asString) :=
    fragResult_dispatch_eq (by rw [hset, heq]; omega) htok
      (parse_equality_eq_form hknil hvnil hk hv)
  obtain ⟨k₀, ktl, rfl⟩ := List.exists_cons_of_ne_nil hknil
  have hk₀ : isKeyChar k₀ = true := hk k₀ (by simp)
  rw [List.cons_append] at hfrag htok ⊢
  rw [parseAll_single (not_skip_of_key hk₀) htok, hfrag]

theorem parseAll_eqeq_op {key value : List Char} (hknil : key ≠ []) (hvnil : value ≠ [])
    (hk : ∀ d ∈ key, isKeyChar d = true) (hv : ∀ d ∈ value, isValueChar d = true) :
    parseAll (key ++ '=' :: '=' :: value) = [.ok (.Equal key.asString value.asString)] := by
  have hset : setPatMatch (key ++ '=' :: '=' :: value) = key.length :=
    setPatMatch_stops hknil hk (by decide) (by decide)
  have heq : eqPatMatch (key ++ '=' :: '=' :: value) = key.length + 2 + value.length :=
    eqPatMatch_eqeq_form hknil hvnil hk hv
  have hvpos : 1 ≤ value.length := List.length_pos.mpr hvnil
  have hlen : (key ++ '=' :: '=' :: value).length = key.length + 2 + value.length := by
    simp
    omega
  have htok : tokenLen (key ++ '=' :: '=' :: value) = (key ++ '=' :: '=' :: value).length := by
    simp only [tokenLen, hset, heq, hlen]
    omega
  have hfrag : fragResult (key ++ '=' :: '=' :: value) 0 =
      .ok (.Equal key.asString value.asString) :=
    fragResult_dispatch_eq (by rw [hset, heq]; omega) htok
      (parse_equality_eqeq_form hknil hvnil hk hv)
  obtain ⟨k₀, ktl, rfl⟩ := List.exists_cons_of_ne_nil hknil
  have hk₀ : isKeyChar k₀ = true := hk k₀ (by simp)
  rw [List.cons_append] at hfrag htok ⊢
  rw [parseAll_single (not_skip_of_key hk₀) htok, hfrag]

theorem parseAll_ne_op {key value : List Char} (hknil : key ≠ []) (hvnil : value ≠ [])
    (hk : ∀ d ∈ key, isKeyChar d = true) (hv : ∀ d ∈ value, isValueChar d = true) :
    parseAll (key ++ '!' :: '=' :: value) = [.ok (.NotEqual key.asString value.asString)] := by
  have hset : setPatMatch (key ++ '!' :: '=' :: value) = key.length := by
    have h1 : isKeyChar '!' = false := by decide
    have h2 : isSpaceChar '!' = false := by decide
    exact setPatMatch_stops hknil hk h1 h2
  have heq : eqPatMatch (key ++ '!' :: '=' :: value) = key.length + 2 + value.length :=
    eqPatMatch_ne_form hknil hvnil hk hv
  have hvpos : 1 ≤ value.length := List.length_pos.mpr hvnil
  have hlen : (key ++ '!' :: '=' :: value).length = key.length + 2 + value.length := by
    simp
    omega
  have htok : tokenLen (key ++ '!' :: '=' :: value) = (key ++ '!' :: '=' :: value).length := by
    simp only [tokenLen, hset, heq, hlen]
    omega
  have hfrag : fragResult (key ++ '!' :: '=' :: value) 0 =
      .ok (.NotEqual key.asString value.asString) :=
    fragResult_dispatch_eq (by rw [hset, heq]; omega) htok
      (parse_equality_ne_form hknil hvnil hk hv)
  obtain ⟨k₀, ktl, rfl⟩ := List.exists_cons_of_ne_nil hknil
  have hk₀ : isKeyChar k₀ = true := hk k₀ (by simp)
  rw [List.cons_append] at hfrag htok ⊢
  rw [parseAll_single (not_skip_of_key hk₀) htok, hfrag]

/-! ### Claim theorems -/

/-- C1: the claim states that every bare identifier matching the key
pattern `[-./\w]+` parses to `Exists` with the entire identifier as key,
and every `!key` to `DoesNotExist`, with neither form ever producing a
parse error.  The code does this only for `\w+` keys: `SetToken::Value`
uses the narrower regex `\w+` (lib.rs line 118), so the bare key `a.b`
(accepted by the top-level pattern) is a whole-fragment parse error,
`a-b` likewise, and `!a.b` silently truncates the key to `a`. -/
theorem c1_bare_key_code_behavior :
    parseAll "a.b".toList = [.error (.StringParse "a.b" ⟨0, 3⟩)] ∧
    parseAll "!a.b".toList = [.ok (.DoesNotExist "a")] ∧
    parseAll "a-b".toList = [.error (.StringParse "a-b" ⟨0, 3⟩)] ∧
    parseAll "a".toList = [.ok (.Exists "a")] ∧
    parseAll "!a".toList = [.ok (.DoesNotExist "a")] :=
  ⟨rfl, rfl, rfl, rfl, rfl⟩

/-- C2: the claim states that `key in ()` parses to `In(key, {})`.  The
guard regexes `\([-.\w\s,]+\)` (lib.rs line 67) and `\([\w\s,]+\)` (line
109) require a non-empty interior, so the code never lets `key in ()`
reach `parse_set`: it yields `Exists("key")` followed by parse errors on
`in`, `(` and `)`, and the one-shot entry point fails — even though the
inner `parse_value_list` itself maps `()` to the empty list. -/
theorem c2_empty_value_list_code_behavior :
    parseAll "key in ()".toList =
      [.ok (.Exists "key"),
       .error (.StringParse "in" ⟨4, 6⟩),
       .error (.StringParse "(" ⟨7, 8⟩),
       .error (.StringParse ")" ⟨8, 9⟩)] ∧
    expressionsTryFrom "key in ()".toList = .error (.StringParse "in" ⟨4, 6⟩) ∧
    parse_value_list "()".toList = some [] :=
  ⟨rfl, rfl, rfl⟩

/-- C3: the claim states that value-list members matching `[a-zA-Z_-]+`
are accepted and members with characters outside that class are rejected.
The `SetToken::ValuesList` guard regex `\([\w\s,]+\)` (lib.rs line 109)
does not contain `-`, so the member `a-b` — accepted by the innermost
`ValuesListToken` regex `[a-zA-Z_-]+` — makes the whole fragment a parse
error.  Members from `[a-zA-Z_]+` are accepted; digits and dots are
rejected as the claim says. -/
theorem c3_value_list_charset_code_behavior :
    parseAll "k in (a-b)".toList = [.error (.StringParse "k in (a-b)" ⟨0, 10⟩)] ∧
    parse_value_list "(a-b)".toList = some ["a-b"] ∧
    parseAll "k in (ab,c_d)".toList = [.ok (.In "k" ["ab", "c_d"])] ∧
    parseAll "k in (a1)".toList = [.error (.StringParse "k in (a1)" ⟨0, 9⟩)] ∧
    parseAll "k in (a.b)".toList = [.error (.StringParse "k in (a.b)" ⟨0, 10⟩)] :=
  ⟨rfl, rfl, rfl, rfl, rfl⟩

/-- C4 counterexample: the fragment `a=b=c` violates the grammar, but
parsing does not yield a parse error for the whole fragment: maximal
munch parses the prefix `a=b` as `Equal("a","b")` (a partially-consumed
expression), errors only on the stray `=`, and parses `c` as
`Exists("c")`. -/
theorem c4_double_operator_counterexample :
    parseAll "a=b=c".toList =
      [.ok (.Equal "a" "b"), .error (.StringParse "=" ⟨3, 4⟩), .ok (.Exists "c")] ∧
    .ok (.Equal "a" "b") ∈ parseAll "a=b=c".toList :=
  ⟨rfl, by
    rw [show parseAll "a=b=c".toList =
      [.ok (.Equal "a" "b"), .error (.StringParse "=" ⟨3, 4⟩), .ok (.Exists "c")] from rfl]
    exact List.mem_cons_self _ _⟩

/-- C4 (amended): a wrong identifier charset inside a value list makes
the whole fragment one parse error, but double operators and mismatched
parentheses are not fragment-level errors: maximal munch splits such
text, parsing valid prefixes as expressions and emitting errors only for
the unclassifiable remainder (`a=b=c` gives `Equal(a,b)`, an error on the
stray `=`, then `Exists(c)`; the unclosed `a in (b` gives `Exists(a)`,
errors on `in` and `(`, then `Exists(b)`).  At least one parse error is
always emitted for these inputs, but partially-consumed expressions do
appear. -/
theorem c4_near_valid_fragment_amended :
    parseAll "k in (a.b)".toList = [.error (.StringParse "k in (a.b)" ⟨0, 10⟩)] ∧
    parseAll "a=b=c".toList =
      [.ok (.Equal "a" "b"), .error (.StringParse "=" ⟨3, 4⟩), .ok (.Exists "c")] ∧
    parseAll "a in (b".toList =
      [.ok (.Exists "a"), .error (.StringParse "in" ⟨2, 4⟩),
       .error (.StringParse "(" ⟨5, 6⟩), .ok (.Exists "b")] :=
  ⟨rfl, rfl, rfl⟩

/-- C5: every StringParse error produced by the step-by-step parse
carries exactly the offending slice: the captured text is the matched
characters and the half-open byte span is their exact byte range in the
original input; tokenization resumes afterwards, as the `a()d` fixture
shows (`Exists(a)`, an error on `(` with span `[1,2)`, an error on `)`
with span `[2,3)`, then `Exists(d)`). -/
theorem c5_error_span_exact_cover :
    (∀ (cs : List Char) (t : String) (a b : Nat),
      .error (.StringParse t ⟨a, b⟩) ∈ parseAll cs →
      ∃ pre mid post, cs = pre ++ mid ++ post ∧ t = mid.asString ∧
        a = byteLen pre ∧ b = a + byteLen mid) ∧
    parseAll "a()d".toList =
      [.ok (.Exists "a"), .error (.StringParse "(" ⟨1, 2⟩),
       .error (.StringParse ")" ⟨2, 3⟩), .ok (.Exists "d")] := by
  constructor
  · intro cs t a b hmem
    simp only [parseAll, parseAllAt] at hmem
    obtain ⟨pre, mid, post, hsplit, ht, hstart, hstop⟩ := parseAllF_error_decomp _ hmem
    exact ⟨pre, mid, post, hsplit, ht, by simpa using hstart, by simpa using hstop⟩
  · rfl

/-- C5 witness: instantiating the exact-cover property on the input `=`,
whose only result is an error covering the whole one-byte input. -/
theorem c5_error_span_exact_cover_witness :
    ∃ pre mid post, "=".toList = pre ++ mid ++ post ∧ "=" = mid.asString ∧
      0 = byteLen pre ∧ 1 = 0 + byteLen mid :=
  c5_error_span_exact_cover.1 "=".toList "=" 0 1
    (by
      rw [show parseAll "=".toList =
        [.error (.StringParse "=" ⟨0, 1⟩)] from rfl]
      exact List.mem_singleton.mpr rfl)

/-- C6: every successfully parsed In or NotIn expression stores its value
collection deduplicated and in ascending lexicographic order (strictly
sorted under `strLt`, hence without duplicates), whatever the order and
multiplicity of the input values; and `a in (c,a,b,a)` parses to
`In("a", {"a","b","c"})`. -/
theorem c6_in_values_sorted_dedup :
    (∀ (cs : List Char) (k : String) (vs : List String),
      (.ok (.In k vs) ∈ parseAll cs ∨ .ok (.NotIn k vs) ∈ parseAll cs) →
      vs.Pairwise (fun a b => strLt a b = true) ∧ vs.Nodup) ∧
    parseAll "a in (c,a,b,a)".toList = [.ok (.In "a" ["a", "b", "c"])] := by
  constructor
  · intro cs k vs hmem
    have hbtree : ∃ l, vs = btreeOfList l := by
      rcases hmem with hmem | hmem <;> simp only [parseAll, parseAllAt] at hmem
      · rcases parseAllF_ok_src _ hmem with ⟨sl, hsl⟩ | ⟨sl, hsl⟩
        · exact parse_set_in_values hsl
        · obtain ⟨k', v', hkv⟩ := parse_equality_shape hsl
          rcases hkv with h | h <;> simp at h
      · rcases parseAllF_ok_src _ hmem with ⟨sl, hsl⟩ | ⟨sl, hsl⟩
        · exact parse_set_notin_values hsl
        · obtain ⟨k', v', hkv⟩ := parse_equality_shape hsl
          rcases hkv with h | h <;> simp at h
    obtain ⟨l, rfl⟩ := hbtree
    exact ⟨btreeOfList_pairwise l, btreeOfList_nodup l⟩
  · rfl

/-- C6 witness: instantiating the invariant on `a in (c,a,b,a)`, whose
value set is `["a","b","c"]`. -/
theorem c6_in_values_sorted_dedup_witness :
    List.Pairwise (fun a b => strLt a b = true) ["a", "b", "c"] ∧
      List.Nodup ["a", "b", "c"] :=
  c6_in_values_sorted_dedup.1 "a in (c,a,b,a)".toList "a" ["a", "b", "c"]
    (Or.inl (by
      rw [show parseAll "a in (c,a,b,a)".toList =
        [.ok (.In "a" ["a", "b", "c"])] from rfl]
      exact List.mem_singleton.mpr rfl))

/-- C7: for every equality fragment built from a key in `[-./\w]+` and a
value in `[-.\w]+`, the operators `=` and `==` both produce `Equal(key,
value)`, `!=` produces `NotEqual(key, value)`, and the equality
sub-tokenizer can never produce anything but `Equal`/`NotEqual` (any
other operator token yields no expression, hence a parse error). -/
theorem c7_equality_operator_forms {key value : List Char}
    (hknil : key ≠ []) (hvnil : value ≠ [])
    (hk : ∀ d ∈ key, isKeyChar d = true) (hv : ∀ d ∈ value, isValueChar d = true) :
    parseAll (key ++ '=' :: value) = [.ok (.Equal key.asString value.asString)] ∧
    parseAll (key ++ '=' :: '=' :: value) = [.ok (.Equal key.asString value.asString)] ∧
    parseAll (key ++ '!' :: '=' :: value) = [.ok (.NotEqual key.asString value.asString)] ∧
    ∀ (cs : List Char) (e : Expression), parse_equality cs = some e →
      ∃ k v, e = .Equal k v ∨ e = .NotEqual k v :=
  ⟨parseAll_eq_op hknil hvnil hk hv, parseAll_eqeq_op hknil hvnil hk hv,
   parseAll_ne_op hknil hvnil hk hv, fun _ _ h => parse_equality_shape h⟩

/-- C7 witness: the three operator forms at key `a` and value `b`. -/
theorem c7_equality_operator_forms_witness :
    parseAll (['a'] ++ '=' :: ['b']) = [.ok (.Equal "a" "b")] ∧
    parseAll (['a'] ++ '=' :: '=' :: ['b']) = [.ok (.Equal "a" "b")] ∧
    parseAll (['a'] ++ '!' :: '=' :: ['b']) = [.ok (.NotEqual "a" "b")] ∧
    ∀ (cs : List Char) (e : Expression), parse_equality cs = some e →
      ∃ k v, e = .Equal k v ∨ e = .NotEqual k v :=
  @c7_equality_operator_forms ['a'] ['b'] (by decide) (by decide) (by decide) (by decide)

/-- C8 (amended): the separator class is exactly `[, \t\n\f]` (comma,
space, tab, newline, form feed — not every whitespace character): a
maximal run of those characters before any suffix is skipped and only
shifts byte positions, leaving the parsed results of the suffix
unchanged. -/
theorem c8_separator_skip {sep s : List Char} (pos : Nat)
    (h : ∀ c ∈ sep, isSkipChar c = true) :
    parseAllAt (sep ++ s) pos = parseAllAt s (pos + byteLen sep) := by
  unfold parseAllAt
  rw [parseAllF_skip_sep _ s pos h]
  exact parseAllF_stable _ (by simp) (by omega)

/-- C8 witness: skipping the separator run `", "` before `a`. -/
theorem c8_separator_skip_witness :
    parseAllAt ([',', ' '] ++ ['a']) 0 = parseAllAt ['a'] (0 + byteLen [',', ' ']) :=
  @c8_separator_skip [',', ' '] ['a'] 0 (by decide)

/-- C8 counterexample: the carriage return is in the claim's separator
class `[,\s]` (it satisfies `\s`), yet it is not skipped: `a\rb` fails to
parse on the `\r` byte while `a b` parses, so not every whitespace run
between fragments is a separator with no effect. -/
theorem c8_carriage_return_counterexample :
    isSpaceChar '\r' = true ∧
    expressionsTryFrom "a\rb".toList = .error (.StringParse "\r" ⟨1, 2⟩) ∧
    expressionsTryFrom "a b".toList = .ok [.Exists "a", .Exists "b"] :=
  ⟨rfl, rfl, rfl⟩

/-- C9: the one-shot entry point returns exactly the step-by-step
expressions in source order when no fragment errors, and otherwise
returns the first fragment error: the step sequence then consists of
successfully parsed expressions followed by that error (nothing after
the error is reflected in the result). -/
theorem c9_try_from_first_error_terminal (cs : List Char) :
    (∀ l : List Expression, expressionsTryFrom cs = .ok l → parseAll cs = l.map .ok) ∧
    ∀ e : ParseError, expressionsTryFrom cs = .error e →
      ∃ (pre : List Expression) (post : List (Except ParseError Expression)),
        parseAll cs = pre.map .ok ++ .error e :: post := by
  have h := expressionsTryFromF_spec (cs.length + 1) cs 0
  constructor
  · intro l hl
    simp only [expressionsTryFrom] at hl
    rw [hl] at h
    exact h
  · intro e he
    simp only [expressionsTryFrom] at he
    rw [he] at h
    exact h

/-- C9 witness: on `a,=` the one-shot result is the error on `=`, and the
step sequence is ok-results followed by that error. -/
theorem c9_try_from_first_error_terminal_witness :
    ∃ (pre : List Expression) (post : List (Except ParseError Expression)),
      parseAll "a,=".toList = pre.map .ok ++ .error (.StringParse "=" ⟨2, 3⟩) :: post :=
  (c9_try_from_first_error_terminal "a,=".toList).2 (.StringParse "=" ⟨2, 3⟩) rfl

/-- C10: every StringParse error span is a valid half-open byte range of
the original input: start ≤ stop and stop never exceeds the input's byte
length. -/
theorem c10_span_bounds_valid (cs : List Char) (t : String) (a b : Nat)
    (h : .error (.StringParse t ⟨a, b⟩) ∈ parseAll cs) :
    a ≤ b ∧ b ≤ byteLen cs := by
  simp only [parseAll, parseAllAt] at h
  obtain ⟨pre, mid, post, hsplit, -, hstart, hstop⟩ := parseAllF_error_decomp _ h
  have ha : a = byteLen pre := by simpa using hstart
  have hb : b = a + byteLen mid := by simpa using hstop
  subst hsplit
  rw [byteLen_append, byteLen_append]
  omega

/-- C10 witness: the error span of the input `=` is `[0,1)`, within its
one-byte length. -/
theorem c10_span_bounds_valid_witness : 0 ≤ 1 ∧ 1 ≤ byteLen "=".toList :=
  c10_span_bounds_valid "=".toList "=" 0 1
    (by
      rw [show parseAll "=".toList = [.error (.StringParse "=" ⟨0, 1⟩)] from rfl]
      exact List.mem_singleton.mpr rfl)
